import Mathlib

/-!
Shallow embedding of the gofmbt model-based-testing library
(state/transition model, bounded path enumeration, coverage tracking
and best-path selection), together with theorems checking the
natural-language specification against the code.

States are opaque in the source: the only capability the core uses is
a string rendering (the Go `State` interface's `String()` method).  We
model the state type as a type parameter `σ` and pass the rendering
function `render : σ → String` explicitly.
-/

namespace Gofmbt

/-- An Action (walk.go, second hunk is action.go): `name` is the fully
rendered form (`fmt.Sprintf(format, args...)`), `format` the
un-parameterized format string.  The opaque `args` are dropped: they
are only ever used to produce `name`. -/
structure ActionT where
  name : String
  format : String
deriving DecidableEq, Repr

/-- `NewAction(format)` with no arguments: the rendered name is the
format string itself. -/
def mkAction (format : String) : ActionT := { name := format, format := format }

/-- A Step (path.go): one realized `(start, action, end)` triple.  The
Go field `end` is a Lean keyword, so it is named `endState` here,
matching the `EndState()` accessor. -/
structure Step (σ : Type) where
  start : σ
  action : ActionT
  endState : σ
deriving DecidableEq, Repr

/-- A Path is a sequence of Steps. -/
abbrev Path (σ : Type) := List (Step σ)

/-- A Transition (transition.go): an action plus a state-change
function; `none` means the transition is not possible in the given
state (Go returns nil). -/
structure Transition (σ : Type) where
  action : ActionT
  stateChange : σ → Option σ

/-- A Model (model.go) is the ordered list of registered transition
generators (`Model.From` appends to `gen`). -/
def Model (σ : Type) := List (σ → List (Transition σ))

/-- `Model.TransitionsFrom`: invoke every generator in registration
order and concatenate the results. -/
def Model.TransitionsFrom (m : Model σ) (s : σ) : List (Transition σ) :=
  m.flatMap (fun gen => gen s)

/-- `Model.StepsFrom`: apply each transition's state change to `s`;
transitions returning nil are dropped, the rest become Steps in
order. -/
def Model.StepsFrom (m : Model σ) (s : σ) : List (Step σ) :=
  (m.TransitionsFrom s).filterMap
    (fun t => (t.stateChange s).map (fun endState => ⟨s, t.action, endState⟩))

/-- `Model.Paths` (model.go lines 69-89): depth-bounded exhaustive
enumeration.  Returns nil when `maxLen == 0`; for each step, if the
recursive call returns no child paths the single-step path is emitted,
otherwise the step is prepended to every child path; returns nil when
no path was produced (dead end). -/
def Model.Paths (m : Model σ) (s : σ) : Nat → List (Path σ)
  | 0 => []
  | maxLen + 1 =>
    let paths := (m.StepsFrom s).flatMap (fun step =>
      let childPaths := m.Paths step.endState maxLen
      if childPaths.isEmpty then [[step]]
      else childPaths.map (fun childPath => step :: childPath))
    paths

/-- A Walker (walk.go): a walkable model plus an optional step
filter. -/
structure Walker (σ : Type) where
  m : Model σ
  stepFilter : Option (List (Step σ) → List (Step σ))

/-- `Walker.yieldPaths` (walk.go lines 47-65), expressed as the list
of paths yielded (each yielded buffer view taken at yield time): when
the depth budget is exhausted the accumulated path is yielded; at a
dead end (after filtering) the accumulated shorter path is yielded;
otherwise recurse over each next step.  The result below is the list
of path suffixes produced from state `s` with `maxLen` budget left;
`Walker.IterPaths s maxLen` yields exactly this list. -/
def Walker.yieldPaths (w : Walker σ) (s : σ) : Nat → List (Path σ)
  | 0 => [[]]
  | maxLen + 1 =>
    let nextSteps :=
      match w.stepFilter with
      | none => w.m.StepsFrom s
      | some f => f (w.m.StepsFrom s)
    if nextSteps.isEmpty then [[]]
    else nextSteps.flatMap (fun step =>
      (w.yieldPaths step.endState maxLen).map (fun suffix => step :: suffix))

/-- `Walker.Paths` (walk.go lines 67-77): drain `IterPaths`, copying
each yielded path.  The copies are exactly the yielded lists. -/
def Walker.Paths (w : Walker σ) (s : σ) (maxLen : Nat) : List (Path σ) :=
  w.yieldPaths s maxLen

/-! ## Coverage functions (cover.go lines 52-173) -/

/-- The separator used by the built-in coverage functions
(`actionSep`, `stateSep`, `stateActionSep` are all `"\x00"`). -/
def coverSep : String := "\x00"

/-- `ActionNames`: names of actions in a path. -/
def ActionNames (path : Path σ) : List String :=
  path.map (fun t => t.action.name)

/-- `ActionFormats`: formats of actions in a path. -/
def ActionFormats (path : Path σ) : List String :=
  path.map (fun t => t.action.format)

/-- `StateStrings`: state renderings in a path: nil for the empty
path, otherwise the first step's start state followed by every step's
end state. -/
def StateStrings (render : σ → String) : Path σ → List String
  | [] => []
  | step :: rest => render step.start :: (step :: rest).map (fun st => render st.endState)

/-- `StateActionStrings`: state-action pairs in a path. -/
def StateActionStrings (render : σ → String) (path : Path σ) : List String :=
  path.map (fun step => render step.start ++ coverSep ++ step.action.name)

/-- `strings.Join` with a separator. -/
def sepJoin (sep : String) : List String → String
  | [] => ""
  | x :: xs => xs.foldl (fun acc y => acc ++ sep ++ y) x

/-- The shared shape of the three `Cover*Combinations` closures
(cover.go lines 108-116, 125-133, 152-160): for every `combLen` in
`1..combLenMax` and every start index `first` in
`0..len(path)-combLen`, one item built by `inner` from the slice
`path[first : first+combLen]`, joined with the separator. -/
def combItems (inner : Path σ → List String) (combLenMax : Nat) (path : Path σ) : List String :=
  (List.range combLenMax).flatMap (fun cl =>
    let combLen := cl + 1
    (List.range (path.length + 1 - combLen)).map (fun first =>
      sepJoin coverSep (inner ((path.drop first).take combLen))))

/-- The built-in coverage criteria.  `addCovFunc` is package-private
in the source, so every registered coverage function is one of
these. -/
inductive CovFunc where
  | actions
  | actionFormats
  | actionCombinations (combLenMax : Nat)
  | actionFormatCombinations (combLenMax : Nat)
  | states
  | stateActions
  | stateCombinations (combLenMax : Nat)
deriving DecidableEq, Repr

/-- Interpretation of a registered coverage function on a path. -/
def CovFunc.run (render : σ → String) : CovFunc → Path σ → List String
  | .actions, path => ActionNames path
  | .actionFormats, path => ActionFormats path
  | .actionCombinations k, path => combItems ActionNames k path
  | .actionFormatCombinations k, path => combItems ActionFormats k path
  | .states, path => StateStrings render path
  | .stateActions, path => StateActionStrings render path
  | .stateCombinations k, path => combItems (StateStrings render) k path

/-! ## Coverer state (cover.go lines 36-202) -/

/-- The Coverer.  The Go `coverCount map[string]int` is modelled by
the list of its keys (`coverCount`): the map's values are only ever
compared with 0 and only the key set and its size are observable
(`Coverage`, `CoveredStrings`, the `== 0` membership tests); a value
for a present key is always positive since it is only set by `++`
starting from 0.  The `rand` source is not modelled; `randomness`
keeps the level set by `SetBestPathRandom`. -/
structure Coverer (σ : Type) where
  coveredPath : Path σ
  coverCount : List String
  covFuncs : List CovFunc
  historyLen : Nat
  randomness : Nat

/-- Randomness levels (cover.go lines 22-28). -/
def BestPathRandomNone : Nat := 0

/-- Randomness level 1. -/
def BestPathRandomAmongEquallyGood : Nat := 1

/-- Randomness level 2. -/
def BestPathRandomAmongFastestMaxCoverageIncrease : Nat := 2

/-- Randomness level 3. -/
def BestPathRandomAmongMaxCoverageIncrease : Nat := 3

/-- Randomness level 4. -/
def BestPathRandomAmongAnyPath : Nat := 4

/-- `NewCoverer`. -/
def NewCoverer (σ : Type) : Coverer σ :=
  { coveredPath := [], coverCount := [], covFuncs := [], historyLen := 0, randomness := 0 }

/-- `Coverer.addCovFunc`. -/
def Coverer.addCovFunc (c : Coverer σ) (f : CovFunc) : Coverer σ :=
  { c with covFuncs := c.covFuncs ++ [f] }

/-- `Coverer.CoverActions`. -/
def Coverer.CoverActions (c : Coverer σ) : Coverer σ := c.addCovFunc .actions

/-- `Coverer.CoverActionFormats`. -/
def Coverer.CoverActionFormats (c : Coverer σ) : Coverer σ := c.addCovFunc .actionFormats

/-- `Coverer.CoverActionCombinations`: raises `historyLen` to at
least `combLenMax` and registers the action-combination items. -/
def Coverer.CoverActionCombinations (c : Coverer σ) (combLenMax : Nat) : Coverer σ :=
  let c := if c.historyLen < combLenMax then { c with historyLen := combLenMax } else c
  c.addCovFunc (.actionCombinations combLenMax)

/-- `Coverer.CoverActionFormatCombinations`. -/
def Coverer.CoverActionFormatCombinations (c : Coverer σ) (combLenMax : Nat) : Coverer σ :=
  let c := if c.historyLen < combLenMax then { c with historyLen := combLenMax } else c
  c.addCovFunc (.actionFormatCombinations combLenMax)

/-- `Coverer.CoverStates`. -/
def Coverer.CoverStates (c : Coverer σ) : Coverer σ := c.addCovFunc .states

/-- `Coverer.CoverStateActions`. -/
def Coverer.CoverStateActions (c : Coverer σ) : Coverer σ := c.addCovFunc .stateActions

/-- `Coverer.CoverStateCombinations`. -/
def Coverer.CoverStateCombinations (c : Coverer σ) (combLenMax : Nat) : Coverer σ :=
  let c := if c.historyLen < combLenMax then { c with historyLen := combLenMax } else c
  c.addCovFunc (.stateCombinations combLenMax)

/-- `Coverer.covFunc`: concatenation of all registered coverage
functions applied to a path. -/
def Coverer.covFunc (render : σ → String) (c : Coverer σ) (path : Path σ) : List String :=
  c.covFuncs.flatMap (fun f => f.run render path)

/-- `Coverer.Coverage`: the number of keys of the covered-count map. -/
def Coverer.Coverage (c : Coverer σ) : Nat := c.coverCount.length

/-- Go map insertion of a key (`m[s]++` seen through the key set):
a new key is appended, an existing key leaves the key set unchanged. -/
def insertKey (m : List String) (s : String) : List String :=
  if s ∈ m then m else m ++ [s]

/-- `Coverer.UpdateCoverage`: recompute the covered-count map from
scratch over the covered path. -/
def Coverer.UpdateCoverage (render : σ → String) (c : Coverer σ) : Coverer σ :=
  { c with coverCount := (c.covFunc render c.coveredPath).foldl insertKey [] }

/-- `Coverer.MarkCovered`: append steps to the covered path; the
covered-count map is not updated. -/
def Coverer.MarkCovered (c : Coverer σ) (steps : List (Step σ)) : Coverer σ :=
  { c with coveredPath := c.coveredPath ++ steps }

/-- `CoverageIncreaseStats` (cover.go lines 206-211).  The Go fields
are `int`; `MaxStep`/`FirstStep` can be -1 so they are `Int`, the two
increase counts are map sizes and stay `Nat`. -/
structure CoverageIncreaseStats where
  MaxStep : Int
  MaxIncrease : Nat
  FirstStep : Int
  FirstIncrease : Nat
deriving DecidableEq, Repr

/-- The loop of `EstimateCoverageIncrease` (cover.go lines 231-246).
`i` is the Go loop index, `firstCC` the key set of `firstCoverCount`,
`est` the stats record being filled in.  `fuel` is the structural
recursion budget; the caller passes `pathWithHistory.length - hLen`
so that `fuel > 0 ↔ i < pathWithHistory.length` throughout.  After
each step the items of `pathWithHistory[:i+1]` whose covered count is
zero are folded into `firstCoverCount`; `FirstStep`/`FirstIncrease`
are recorded the first time that set is nonempty, and the loop stops
(`break`) recording `MaxStep` when its size reaches `MaxIncrease`. -/
def estimateLoop (render : σ → String) (c : Coverer σ) (pwh : Path σ) (hLen : Nat) :
    Nat → Nat → List String → CoverageIncreaseStats → CoverageIncreaseStats
  | 0, _, _, est => est
  | fuel + 1, i, firstCC, est =>
    let newCovered := c.covFunc render (pwh.take (i + 1))
    let firstCC := newCovered.foldl
      (fun m s => if s ∈ c.coverCount then m else insertKey m s) firstCC
    let est :=
      if est.FirstStep = -1 ∧ 0 < firstCC.length then
        { est with FirstStep := (i : Int) - (hLen : Int), FirstIncrease := firstCC.length }
      else est
    if est.MaxStep = -1 ∧ firstCC.length = est.MaxIncrease then
      { est with MaxStep := (i : Int) - (hLen : Int) }
    else
      estimateLoop render c pwh hLen fuel (i + 1) firstCC est

/-- The pure tail of `EstimateCoverageIncrease` once `pathWithHistory`
has been formed: count the distinct items of `covFunc(pathWithHistory)`
whose covered count is zero (`MaxIncrease`), then run the step-by-step
loop from index `hLen`. -/
def estimateFrom (render : σ → String) (c : Coverer σ) (pwh : Path σ) (hLen : Nat) :
    CoverageIncreaseStats :=
  let allNewCovered := c.covFunc render pwh
  let fullCC := allNewCovered.foldl
    (fun m s => if s ∈ c.coverCount then m else insertKey m s) []
  estimateLoop render c pwh hLen (pwh.length - hLen) hLen []
    { MaxStep := -1, MaxIncrease := fullCC.length, FirstStep := -1, FirstIncrease := 0 }

/-- `Coverer.EstimateCoverageIncrease` (cover.go lines 215-248): form
`pathWithHistory` = last `min(historyLen, len(coveredPath))` covered
steps ++ the candidate, then estimate. -/
def Coverer.EstimateCoverageIncrease (render : σ → String) (c : Coverer σ) (path : Path σ) :
    CoverageIncreaseStats :=
  let hLen := min c.historyLen c.coveredPath.length
  let pwh := c.coveredPath.drop (c.coveredPath.length - hLen) ++ path
  estimateFrom render c pwh hLen

/-- The running-best update of `Coverer.BestPath` (cover.go lines
286-324): `true` means the freshly estimated candidate replaces the
current best.  The comparison cascade and the early `continue`s at
randomness levels `AmongMaxCoverageIncrease` and
`AmongFastestMaxCoverageIncrease` are mirrored branch for branch. -/
def replacesBest (randomness : Nat) (est best : CoverageIncreaseStats) : Bool :=
  if est.MaxIncrease < best.MaxIncrease then false
  else if best.MaxIncrease < est.MaxIncrease then true
  else if randomness = BestPathRandomAmongMaxCoverageIncrease then false
  else if best.MaxStep < est.MaxStep then false
  else if est.MaxStep < best.MaxStep then true
  else if randomness = BestPathRandomAmongFastestMaxCoverageIncrease then false
  else if best.FirstStep < est.FirstStep then false
  else if est.FirstStep < best.FirstStep then true
  else if est.FirstIncrease < best.FirstIncrease then false
  else if best.FirstIncrease < est.FirstIncrease then true
  else false

/-- The candidate scan of `Coverer.BestPath` (cover.go lines
273-330): skip candidates whose estimated `MaxIncrease` is 0; the
first surviving candidate becomes the best (and, at randomness level
`AmongAnyPath`, breaks the scan); later survivors replace the best
exactly when `replacesBest` says so. -/
def scanPaths (render : σ → String) (c : Coverer σ)
    (acc : Option (Path σ × CoverageIncreaseStats)) :
    List (Path σ) → Option (Path σ × CoverageIncreaseStats)
  | [] => acc
  | path :: rest =>
    let est := c.EstimateCoverageIncrease render path
    if est.MaxIncrease = 0 then scanPaths render c acc rest
    else
      match acc with
      | none =>
        if BestPathRandomAmongAnyPath ≤ c.randomness then some (path, est)
        else scanPaths render c (some (path, est)) rest
      | some (bestPath, best) =>
        if replacesBest c.randomness est best then scanPaths render c (some (path, est)) rest
        else scanPaths render c (some (bestPath, best)) rest

/-- `Coverer.BestPath` (cover.go lines 266-335): scan the enumerated
candidates (`m.Paths(s, maxLen)`) and return nil when the best path
is empty.  With randomness level `BestPathRandomNone` the candidate
list is not shuffled, so this definition is exact; for nonzero
randomness levels the Go code first applies a seeded shuffle, which
the theorems cover by quantifying `scanPaths` over an arbitrary
candidate list. -/
def Coverer.BestPath (render : σ → String) (c : Coverer σ) (m : Model σ) (s : σ)
    (maxLen : Nat) : Option (Path σ × CoverageIncreaseStats) :=
  match scanPaths render c none (m.Paths s maxLen) with
  | none => none
  | some (bestPath, best) => if bestPath.isEmpty then none else some (bestPath, best)

/-! ## The player model of model_test.go (lines 22-87) -/

/-- `PlayerState` (model_test.go lines 22-25). -/
structure PlayerState where
  playing : Bool
  song : Nat
deriving DecidableEq, Repr

/-- `PlayerState.String` (model_test.go lines 27-29):
`fmt.Sprintf("\x7bplaying:%v,song:%v\x7d", ...)`. -/
def renderPlayer (ps : PlayerState) : String :=
  "\x7bplaying:" ++ (if ps.playing then "true" else "false")
    ++ ",song:" ++ toString ps.song ++ "\x7d"

/-- `newPlayerModelWithRawTransitions` (model_test.go lines 34-87):
one generator offering play/pause/nextsong/prevsong with their
guards. -/
def playerModel : Model PlayerState :=
  [fun _ => [
    { action := mkAction "play",
      stateChange := fun s =>
        if s.playing then none else some { playing := true, song := s.song } },
    { action := mkAction "pause",
      stateChange := fun s =>
        if !s.playing then none else some { playing := false, song := s.song } },
    { action := mkAction "nextsong",
      stateChange := fun s =>
        if 3 ≤ s.song then none else some { playing := s.playing, song := s.song + 1 } },
    { action := mkAction "prevsong",
      stateChange := fun s =>
        if s.song ≤ 1 then none else some { playing := s.playing, song := s.song - 1 } }]]

/-- A dead-end model: its only transition is nowhere applicable, so
every state has zero applicable steps. -/
def deadModel : Model Nat :=
  [fun _ => [{ action := mkAction "a", stateChange := fun _ => none }]]

/-- The play step of the player model from `{playing:false, song:1}`. -/
def playStep : Step PlayerState :=
  { start := ⟨false, 1⟩, action := mkAction "play", endState := ⟨true, 1⟩ }

/-- The pause step of the player model from `{playing:true, song:1}`. -/
def pauseStep : Step PlayerState :=
  { start := ⟨true, 1⟩, action := mkAction "pause", endState := ⟨false, 1⟩ }

/-- A Coverer that has already covered `playStep` with action
coverage registered and its coverage counts up to date. -/
def playCovered : Coverer PlayerState :=
  (((NewCoverer PlayerState).CoverActions).MarkCovered [playStep]).UpdateCoverage renderPlayer

/-! ## Go slice semantics for the frame claim about
`EstimateCoverageIncrease`

`pathWithHistory := append(c.coveredPath[len-historyLen:], path...)`
appends through a sub-slice of `coveredPath`, so when the backing
array has spare capacity Go writes the candidate into the backing
array of `coveredPath` (past its length).  To check that the Coverer
is still observably unchanged, slices are modelled with an explicit
backing store. -/

/-- A Go slice: backing array, start offset and length.  Its capacity
is `arr.length - start` (modelling the backing array only up to the
capacity). -/
structure GoSlice (α : Type) where
  arr : List α
  start : Nat
  len : Nat

/-- The elements a Go slice denotes. -/
def GoSlice.visible (s : GoSlice α) : List α :=
  (s.arr.drop s.start).take s.len

/-- Overwrite `l` starting at index `i` with the elements of `xs`
(Go's copy into spare capacity; callers guarantee
`i + xs.length ≤ l.length`). -/
def listWrite (l : List α) (i : Nat) (xs : List α) : List α :=
  l.take i ++ (xs ++ l.drop (i + xs.length))

/-- Go `append(s, xs...)`: write into the backing array when the
capacity suffices, otherwise allocate a fresh backing array.  (The
fresh array is modelled without spare capacity; extra capacity is
unobservable here.) -/
def GoSlice.append (s : GoSlice α) (xs : List α) : GoSlice α :=
  if s.start + s.len + xs.length ≤ s.arr.length then
    { arr := listWrite s.arr (s.start + s.len) xs, start := s.start, len := s.len + xs.length }
  else
    { arr := s.visible ++ xs, start := 0, len := s.len + xs.length }

/-- A Coverer whose `coveredPath` slice carries its backing array, for
stating the frame property of `EstimateCoverageIncrease`. -/
structure CovererH (σ : Type) where
  coveredPath : GoSlice (Step σ)
  coverCount : List String
  covFuncs : List CovFunc
  historyLen : Nat
  randomness : Nat

/-- The plain Coverer a `CovererH` denotes. -/
def CovererH.toCoverer (c : CovererH σ) : Coverer σ :=
  { coveredPath := c.coveredPath.visible, coverCount := c.coverCount,
    covFuncs := c.covFuncs, historyLen := c.historyLen, randomness := c.randomness }

/-- `EstimateCoverageIncrease` with the slice-level effects of
`append(c.coveredPath[len(c.coveredPath)-historyLen:], path...)`
made explicit: the returned `CovererH` carries the backing array of
`coveredPath` as the append left it (written into when the spare
capacity sufficed, untouched when Go reallocated).  No field of the
Coverer is assigned by the source, so all other fields are returned
as they were. -/
def CovererH.EstimateCoverageIncrease (render : σ → String) (c : CovererH σ) (path : Path σ) :
    CoverageIncreaseStats × CovererH σ :=
  let hLen := min c.historyLen c.coveredPath.len
  let sub : GoSlice (Step σ) :=
    { arr := c.coveredPath.arr, start := c.coveredPath.start + (c.coveredPath.len - hLen),
      len := hLen }
  let pwh := sub.append path
  let arrAfter :=
    if sub.start + sub.len + path.length ≤ sub.arr.length then pwh.arr
    else c.coveredPath.arr
  (estimateFrom render c.toCoverer pwh.visible hLen,
   { c with coveredPath := { c.coveredPath with arr := arrAfter } })

/-! ## Reachable Coverer states

The exported Coverer API (cover.go): `NewCoverer`, the `Cover*`
registrations, `MarkCovered`, `UpdateCoverage`, `SetBestPathRandom`
(`Coverage`, `CoveredStrings`, estimation and `BestPath` do not write
any field). -/

/-- The Coverer states reachable through the exported API. -/
inductive Reachable (render : σ → String) : Coverer σ → Prop
  | new : Reachable render (NewCoverer σ)
  | coverActions {c} : Reachable render c → Reachable render c.CoverActions
  | coverActionFormats {c} : Reachable render c → Reachable render c.CoverActionFormats
  | coverActionCombinations {c} (k : Nat) :
      Reachable render c → Reachable render (c.CoverActionCombinations k)
  | coverActionFormatCombinations {c} (k : Nat) :
      Reachable render c → Reachable render (c.CoverActionFormatCombinations k)
  | coverStates {c} : Reachable render c → Reachable render c.CoverStates
  | coverStateActions {c} : Reachable render c → Reachable render c.CoverStateActions
  | coverStateCombinations {c} (k : Nat) :
      Reachable render c → Reachable render (c.CoverStateCombinations k)
  | markCovered {c} (steps : List (Step σ)) :
      Reachable render c → Reachable render (c.MarkCovered steps)
  | updateCoverage {c} : Reachable render c → Reachable render (c.UpdateCoverage render)
  | setBestPathRandom {c} (randomness : Nat) :
      Reachable render c → Reachable render { c with randomness := randomness }

/-! ## Spec-side definitions

These follow the words of the claims (not the source), for comparison
with the code-derived definitions. -/

/-- The lexicographic "strictly better" order of claim C1, written
from the spec's words: higher `MaxIncrease` wins; on equal
`MaxIncrease`, lower `MaxStep` wins; on equal `MaxStep`, lower
`FirstStep` wins; on equal `FirstStep`, higher `FirstIncrease`
wins. -/
def LexBetter (a b : CoverageIncreaseStats) : Prop :=
  b.MaxIncrease < a.MaxIncrease ∨
    (a.MaxIncrease = b.MaxIncrease ∧ (a.MaxStep < b.MaxStep ∨
      (a.MaxStep = b.MaxStep ∧ (a.FirstStep < b.FirstStep ∨
        (a.FirstStep = b.FirstStep ∧ b.FirstIncrease < a.FirstIncrease)))))

instance (a b : CoverageIncreaseStats) : Decidable (LexBetter a b) := by
  unfold LexBetter; infer_instance

/-- The chaining invariant of claim C6, written from the spec's
words: every adjacent pair of steps satisfies
`end.render() == next.start.render()`. -/
def ChainsRender (render : σ → String) (p : Path σ) : Prop :=
  List.Chain' (fun a b => render a.endState = render b.start) p

/-! # Theorems -/

/-! ## Path enumeration -/

theorem stepsFrom_start {m : Model σ} {s : σ} {st : Step σ}
    (h : st ∈ m.StepsFrom s) : st.start = s := by
  simp only [Model.StepsFrom, List.mem_filterMap, Option.map_eq_some'] at h
  obtain ⟨t, -, e, -, rfl⟩ := h
  rfl

theorem modelPaths_chain {m : Model σ} :
    ∀ (n : Nat) (s : σ) (p : Path σ), p ∈ m.Paths s n →
      (∀ q ∈ p.head?, q.start = s) ∧ List.Chain' (fun a b => a.endState = b.start) p := by
  intro n
  induction n with
  | zero => intro s p h; simp [Model.Paths] at h
  | succ k ih =>
    intro s p h
    simp only [Model.Paths, List.mem_flatMap] at h
    obtain ⟨step, hstep, hp⟩ := h
    by_cases hempty : (m.Paths step.endState k).isEmpty
    · rw [if_pos hempty, List.mem_singleton] at hp
      subst hp
      refine ⟨?_, List.chain'_singleton step⟩
      intro q hq
      simp only [List.head?_cons, Option.mem_def, Option.some.injEq] at hq
      subst hq
      exact stepsFrom_start hstep
    · rw [if_neg hempty, List.mem_map] at hp
      obtain ⟨cp, hcp, hpe⟩ := hp
      subst hpe
      obtain ⟨hhead, hchain⟩ := ih step.endState cp hcp
      refine ⟨?_, ?_⟩
      · intro q hq
        simp only [List.head?_cons, Option.mem_def, Option.some.injEq] at hq
        subst hq
        exact stepsFrom_start hstep
      · rw [List.chain'_cons']
        exact ⟨fun b hb => (hhead b hb).symm, hchain⟩

theorem yieldPaths_chain {w : Walker σ}
    (hf : ∀ f, w.stepFilter = some f → ∀ (l : List (Step σ)) st, st ∈ f l → st ∈ l) :
    ∀ (n : Nat) (s : σ) (p : Path σ), p ∈ w.yieldPaths s n →
      (∀ q ∈ p.head?, q.start = s) ∧ List.Chain' (fun a b => a.endState = b.start) p := by
  intro n
  induction n with
  | zero =>
    intro s p h
    simp only [Walker.yieldPaths, List.mem_singleton] at h
    subst h
    exact ⟨by simp, List.chain'_nil⟩
  | succ k ih =>
    intro s p h
    simp only [Walker.yieldPaths] at h
    set nextSteps := (match w.stepFilter with
      | none => w.m.StepsFrom s
      | some f => f (w.m.StepsFrom s)) with hns
    have hsub : ∀ st ∈ nextSteps, st ∈ w.m.StepsFrom s := by
      intro st hst
      rw [hns] at hst
      cases hfil : w.stepFilter with
      | none => rw [hfil] at hst; exact hst
      | some f => rw [hfil] at hst; exact hf f hfil _ st hst
    by_cases hempty : nextSteps.isEmpty
    · rw [if_pos hempty, List.mem_singleton] at h
      subst h
      exact ⟨by simp, List.chain'_nil⟩
    · rw [if_neg hempty, List.mem_flatMap] at h
      obtain ⟨step, hstep, hp⟩ := h
      rw [List.mem_map] at hp
      obtain ⟨suffix, hsfx, rfl⟩ := hp
      obtain ⟨hhead, hchain⟩ := ih step.endState suffix hsfx
      refine ⟨?_, ?_⟩
      · intro q hq
        simp only [List.head?_cons, Option.mem_def, Option.some.injEq] at hq
        subst hq
        exact stepsFrom_start (hsub step hstep)
      · rw [List.chain'_cons']
        exact ⟨fun b hb => (hhead b hb).symm, hchain⟩

/-- C6: every path produced by `Model.Paths` or by the Walker
enumeration (`IterPaths` and `Paths` yield the same path lists) is
chained: each step's end state renders equal to the next step's start
state.  The Walker's optional step filter is assumed to select among
the offered steps (its purpose in the source: pruning). -/
theorem paths_chaining_invariant (render : σ → String) (m : Model σ) (w : Walker σ)
    (hf : ∀ f, w.stepFilter = some f → ∀ (l : List (Step σ)) st, st ∈ f l → st ∈ l)
    (s s' : σ) (n n' : Nat) :
    (∀ p ∈ m.Paths s n, ChainsRender render p) ∧
      (∀ p ∈ w.Paths s' n', ChainsRender render p) := by
  constructor
  · intro p hp
    exact ((modelPaths_chain n s p hp).2).imp (fun {a b} h => by rw [h])
  · intro p hp
    exact ((yieldPaths_chain hf n' s' p hp).2).imp (fun {a b} h => by rw [h])

/-- C6 witness: the chaining invariant at a concrete enumerated path
of the player model, depth 2, with no step filter. -/
theorem paths_chaining_invariant_witness :
    ChainsRender renderPlayer [playStep, pauseStep] :=
  (paths_chaining_invariant renderPlayer playerModel ⟨playerModel, none⟩
    (fun f hf => by simp at hf) ⟨false, 1⟩ ⟨false, 1⟩ 2 2).1
    [playStep, pauseStep] (by decide)

theorem modelPaths_of_no_steps {m : Model σ} {s : σ} (h : m.StepsFrom s = []) :
    ∀ n, m.Paths s n = [] := by
  intro n
  cases n with
  | zero => rfl
  | succ k => simp [Model.Paths, h]

theorem yieldPaths_degenerate {m : Model σ} {s : σ} (n : Nat)
    (h : n = 0 ∨ m.StepsFrom s = []) :
    Walker.yieldPaths ⟨m, none⟩ s n = [[]] := by
  cases n with
  | zero => rfl
  | succ k =>
    rcases h with h | h
    · exact absurd h (Nat.succ_ne_zero k)
    · simp [Walker.yieldPaths, h]

/-- C5 amended: from a dead-end state (zero applicable steps) the
Walker enumeration returns exactly one path, the empty path, for
every `maxDepth ≥ 0`; `Model.Paths` instead returns no paths at all
(Go nil). -/
theorem deadend_enumeration (m : Model σ) (s : σ) (n : Nat)
    (h : m.StepsFrom s = []) :
    Walker.Paths ⟨m, none⟩ s n = [[]] ∧ m.Paths s n = [] :=
  ⟨yieldPaths_degenerate n (Or.inr h), modelPaths_of_no_steps h n⟩

/-- C5 counterexample: state 0 of `deadModel` has zero applicable
steps, yet `Model.Paths` at `maxDepth = 1` does not return exactly
the one empty path — it returns no path at all. -/
theorem deadend_model_paths_cex :
    Gofmbt.Model.StepsFrom deadModel 0 = [] ∧ deadModel.Paths 0 1 ≠ [[]] := by
  decide

/-- C5 amended witness: the dead-end behaviour at `deadModel`,
state 0, depth 1. -/
theorem deadend_enumeration_witness :
    Walker.Paths ⟨deadModel, none⟩ 0 1 = [[]] ∧ deadModel.Paths 0 1 = [] :=
  deadend_enumeration deadModel 0 1 (by decide)

theorem yieldPaths_ne_nil (w : Walker σ) : ∀ (n : Nat) (s : σ), w.yieldPaths s n ≠ [] := by
  intro n
  induction n with
  | zero => intro s; simp [Walker.yieldPaths]
  | succ k ih =>
    intro s
    simp only [Walker.yieldPaths]
    by_cases hempty : (match w.stepFilter with
      | none => w.m.StepsFrom s
      | some f => f (w.m.StepsFrom s)).isEmpty
    · simp [hempty]
    · rw [if_neg hempty]
      intro hcontra
      rcases hns : (match w.stepFilter with
        | none => w.m.StepsFrom s
        | some f => f (w.m.StepsFrom s)) with _ | ⟨step, rest⟩
      · rw [hns] at hempty; simp at hempty
      · rw [hns] at hcontra
        simp only [List.flatMap_cons, List.append_eq_nil, List.map_eq_nil_iff] at hcontra
        exact ih step.endState hcontra.1

theorem modelPaths_eq_yieldPaths {m : Model σ} :
    ∀ (n : Nat) (s : σ), 0 < n → m.StepsFrom s ≠ [] →
      m.Paths s n = Walker.yieldPaths ⟨m, none⟩ s n := by
  intro n
  induction n with
  | zero => intro s h; exact absurd h (by omega)
  | succ k ih =>
    intro s _ hsteps
    simp only [Model.Paths, Walker.yieldPaths]
    rw [if_neg (by simpa [List.isEmpty_iff] using hsteps)]
    rw [List.flatMap_def, List.flatMap_def]
    congr 1
    apply List.map_congr_left
    intro step _
    cases k with
    | zero =>
      simp [Model.Paths, Walker.yieldPaths]
    | succ j =>
      by_cases hse : m.StepsFrom step.endState = []
      · rw [modelPaths_of_no_steps hse, yieldPaths_degenerate _ (Or.inr hse)]
        simp
      · rw [ih step.endState (by omega) hse]
        rw [if_neg (by simpa [List.isEmpty_iff] using yieldPaths_ne_nil ⟨m, none⟩ (j + 1) step.endState)]

/-- C10 amended: `Model.Paths` and `Walker.Paths` (no step filter, same
model) return the same list of paths whenever `maxLen > 0` and the
start state has at least one applicable step; in the remaining cases
(`maxLen == 0` or a dead-end start state) they disagree: `Model.Paths`
returns no paths while `Walker.Paths` returns exactly the empty
path. -/
theorem modelPaths_walkerPaths_agree (m : Model σ) (s : σ) (n : Nat) :
    (0 < n → m.StepsFrom s ≠ [] → m.Paths s n = Walker.Paths ⟨m, none⟩ s n) ∧
      ((n = 0 ∨ m.StepsFrom s = []) →
        m.Paths s n = [] ∧ Walker.Paths ⟨m, none⟩ s n = [[]]) := by
  constructor
  · intro hn hs
    exact modelPaths_eq_yieldPaths n s hn hs
  · intro h
    refine ⟨?_, yieldPaths_degenerate n h⟩
    rcases h with h | h
    · subst h; rfl
    · exact modelPaths_of_no_steps h n

/-- C10 counterexample: at the dead-end state 0 of `deadModel` with
`maxLen = 1`, the two enumerators disagree: `Model.Paths` returns no
paths, `Walker.Paths` returns the empty path. -/
theorem modelPaths_walkerPaths_cex :
    deadModel.Paths 0 1 ≠ Walker.Paths ⟨deadModel, none⟩ 0 1 := by decide

/-- C10 amended witness: the agreement at the player model (depth 2)
and the disagreement shape at a dead end, via the amended theorem. -/
theorem modelPaths_walkerPaths_agree_witness :
    playerModel.Paths ⟨false, 1⟩ 2 = Walker.Paths ⟨playerModel, none⟩ ⟨false, 1⟩ 2 :=
  (modelPaths_walkerPaths_agree playerModel ⟨false, 1⟩ 2).1 (by decide) (by decide)

/-! ## Coverage accounting -/

theorem insertKey_nodup {m : List String} (h : m.Nodup) (s : String) :
    (insertKey m s).Nodup := by
  unfold insertKey
  split
  · exact h
  · next hmem => simp [List.nodup_append, h, hmem]

theorem insertKey_toFinset (m : List String) (s : String) :
    (insertKey m s).toFinset = insert s m.toFinset := by
  unfold insertKey
  split
  · next hmem => rw [Finset.insert_eq_self.mpr (List.mem_toFinset.mpr hmem)]
  · simp [Finset.insert_eq, Finset.union_comm]

theorem foldl_insertKey_spec :
    ∀ (l acc : List String), acc.Nodup →
      (l.foldl insertKey acc).Nodup ∧
        (l.foldl insertKey acc).toFinset = acc.toFinset ∪ l.toFinset := by
  intro l
  induction l with
  | nil => intro acc h; simpa using h
  | cons s rest ih =>
    intro acc h
    rw [List.foldl_cons]
    obtain ⟨h1, h2⟩ := ih (insertKey acc s) (insertKey_nodup h s)
    refine ⟨h1, ?_⟩
    rw [h2, insertKey_toFinset, List.toFinset_cons, Finset.insert_union,
      Finset.union_insert]

theorem foldl_insertKey_length (l : List String) :
    (l.foldl insertKey []).length = l.dedup.length := by
  obtain ⟨h1, h2⟩ := foldl_insertKey_spec l [] List.nodup_nil
  rw [← List.toFinset_card_of_nodup h1, h2]
  simp [List.card_toFinset]

theorem foldl_insertKey_cond_eq_filter (p : String → Prop) [DecidablePred p] :
    ∀ (l acc : List String),
      l.foldl (fun m s => if p s then m else insertKey m s) acc =
        (l.filter (fun s => decide ¬ p s)).foldl insertKey acc := by
  intro l
  induction l with
  | nil => intro acc; rfl
  | cons s rest ih =>
    intro acc
    by_cases hs : p s
    · have hd : (decide ¬ p s) = false := by simp [hs]
      rw [List.foldl_cons, if_pos hs, List.filter_cons]
      simp only [hd, Bool.false_eq_true, if_false]
      exact ih acc
    · have hd : (decide ¬ p s) = true := by simp [hs]
      rw [List.foldl_cons, if_neg hs, List.filter_cons]
      simp only [hd, if_true, List.foldl_cons]
      exact ih (insertKey acc s)

theorem estimateLoop_maxIncrease (render : σ → String) (c : Coverer σ) (pwh : Path σ)
    (hLen : Nat) :
    ∀ (fuel i : Nat) (firstCC : List String) (est : CoverageIncreaseStats),
      (estimateLoop render c pwh hLen fuel i firstCC est).MaxIncrease = est.MaxIncrease := by
  intro fuel
  induction fuel with
  | zero => intro i firstCC est; rfl
  | succ f ih =>
    intro i firstCC est
    simp only [estimateLoop]
    split <;> split <;> simp [ih]

/-- C2: `EstimateCoverageIncrease` returns `MaxIncrease` equal to the
number of distinct coverage items produced by the registered coverage
functions over `contextPrefix ++ candidate` that have zero count in
the current covered-item histogram, where `contextPrefix` is the last
`min(historyLen, len(coveredPath))` steps of `coveredPath`. -/
theorem estimate_maxIncrease_spec (render : σ → String) (c : Coverer σ) (path : Path σ) :
    (c.EstimateCoverageIncrease render path).MaxIncrease =
      ((c.covFunc render
          (c.coveredPath.drop
              (c.coveredPath.length - min c.historyLen c.coveredPath.length) ++ path)).filter
        (fun s => decide ¬ (s ∈ c.coverCount))).dedup.length := by
  unfold Coverer.EstimateCoverageIncrease estimateFrom
  rw [estimateLoop_maxIncrease]
  rw [foldl_insertKey_cond_eq_filter (fun s => s ∈ c.coverCount)]
  rw [foldl_insertKey_length]

/-! ## Monotonicity of the built-in coverage functions -/

theorem combItems_mono (inner : Path σ → List String) (k : Nat) (p q : Path σ)
    (x : String) (h : x ∈ combItems inner k p) : x ∈ combItems inner k (p ++ q) := by
  simp only [combItems, List.mem_flatMap, List.mem_map, List.mem_range] at h ⊢
  obtain ⟨cl, hcl, first, hfirst, hx⟩ := h
  refine ⟨cl, hcl, first, ?_, ?_⟩
  · rw [List.length_append]; omega
  · have h1 : first ≤ p.length := by omega
    have h2 : cl + 1 ≤ (p.drop first).length := by rw [List.length_drop]; omega
    rw [List.drop_append_of_le_length h1, List.take_append_of_le_length h2]
    exact hx

theorem stateStrings_mono (render : σ → String) (p q : Path σ) (x : String)
    (h : x ∈ StateStrings render p) : x ∈ StateStrings render (p ++ q) := by
  cases p with
  | nil => simp [StateStrings] at h
  | cons st rest =>
    rw [List.cons_append]
    simp only [StateStrings, List.mem_cons, List.map_cons, List.map_append] at h ⊢
    rcases h with h | h | h
    · exact Or.inl h
    · exact Or.inr (Or.inl h)
    · exact Or.inr (Or.inr (List.mem_append_left _ h))

theorem covfunc_run_mono (render : σ → String) (f : CovFunc) (p q : Path σ)
    (x : String) (h : x ∈ f.run render p) : x ∈ f.run render (p ++ q) := by
  cases f with
  | actions =>
    simp only [CovFunc.run, ActionNames, List.map_append] at h ⊢
    exact List.mem_append_left _ h
  | actionFormats =>
    simp only [CovFunc.run, ActionFormats, List.map_append] at h ⊢
    exact List.mem_append_left _ h
  | actionCombinations k => exact combItems_mono _ k p q x h
  | actionFormatCombinations k => exact combItems_mono _ k p q x h
  | states => exact stateStrings_mono render p q x h
  | stateActions =>
    simp only [CovFunc.run, StateActionStrings, List.map_append] at h ⊢
    exact List.mem_append_left _ h
  | stateCombinations k => exact combItems_mono _ k p q x h

theorem covFunc_mono (render : σ → String) (c : Coverer σ) (p q : Path σ)
    (x : String) (h : x ∈ c.covFunc render p) : x ∈ c.covFunc render (p ++ q) := by
  simp only [Coverer.covFunc, List.mem_flatMap] at h ⊢
  obtain ⟨f, hf, hx⟩ := h
  exact ⟨f, hf, covfunc_run_mono render f p q x hx⟩

theorem covFunc_mono_take (render : σ → String) (c : Coverer σ) (p : Path σ) (j : Nat)
    (x : String) (h : x ∈ c.covFunc render (p.take j)) : x ∈ c.covFunc render p := by
  have := covFunc_mono render c (p.take j) (p.drop j) x h
  rwa [List.take_append_drop] at this

/-! ## Estimation when nothing new is covered (C3) -/

theorem foldl_cond_noop (cc : List String) :
    ∀ (l : List String), (∀ s ∈ l, s ∈ cc) →
      ∀ (acc : List String),
        l.foldl (fun m s => if s ∈ cc then m else insertKey m s) acc = acc := by
  intro l
  induction l with
  | nil => intro _ acc; rfl
  | cons s rest ih =>
    intro h acc
    rw [List.foldl_cons, if_pos (h s (List.mem_cons_self s rest))]
    exact ih (fun t ht => h t (List.mem_cons_of_mem s ht)) acc

theorem estimate_eq_estimateFrom (render : σ → String) (c : Coverer σ) (path : Path σ) :
    c.EstimateCoverageIncrease render path =
      estimateFrom render c
        (c.coveredPath.drop
            (c.coveredPath.length - min c.historyLen c.coveredPath.length) ++ path)
        (min c.historyLen c.coveredPath.length) := rfl

theorem estimateFrom_no_new (render : σ → String) (c : Coverer σ) (pwh : Path σ)
    (hLen : Nat) (hle : hLen ≤ pwh.length)
    (hall : ∀ x ∈ c.covFunc render pwh, x ∈ c.coverCount) :
    estimateFrom render c pwh hLen =
      { MaxStep := if pwh.length = hLen then -1 else 0,
        MaxIncrease := 0, FirstStep := -1, FirstIncrease := 0 } := by
  simp only [estimateFrom]
  rw [foldl_cond_noop c.coverCount _ hall []]
  rcases hfuel : pwh.length - hLen with _ | k
  · rw [if_pos (by omega)]
    rfl
  · rw [if_neg (by omega)]
    simp only [estimateLoop, List.length_nil]
    have htake : ∀ x ∈ c.covFunc render (pwh.take (hLen + 1)), x ∈ c.coverCount :=
      fun x hx => hall x (covFunc_mono_take render c pwh (hLen + 1) x hx)
    rw [foldl_cond_noop c.coverCount _ htake []]
    simp

/-- C3 amended: if every coverage item of `contextPrefix ++ candidate`
is already covered (no step yields a new item), then
`EstimateCoverageIncrease` returns `MaxIncrease = 0`,
`FirstStep = -1`, `FirstIncrease = 0` — but `MaxStep` is `-1` only for
an empty candidate; for a nonempty candidate the loop's first
iteration already finds the cumulative new-item count (0) equal to
`MaxIncrease` and records `MaxStep = 0`. -/
theorem estimate_no_new_items (render : σ → String) (c : Coverer σ) (path : Path σ)
    (hall : ∀ x ∈ c.covFunc render
        (c.coveredPath.drop (c.coveredPath.length - min c.historyLen c.coveredPath.length)
          ++ path), x ∈ c.coverCount) :
    (c.EstimateCoverageIncrease render path).MaxIncrease = 0 ∧
      (c.EstimateCoverageIncrease render path).FirstStep = -1 ∧
      (c.EstimateCoverageIncrease render path).FirstIncrease = 0 ∧
      (c.EstimateCoverageIncrease render path).MaxStep =
        (if path.isEmpty then -1 else 0) := by
  have hLenle : min c.historyLen c.coveredPath.length ≤ c.coveredPath.length :=
    Nat.min_le_right _ _
  have hctxlen : (c.coveredPath.drop
      (c.coveredPath.length - min c.historyLen c.coveredPath.length)).length =
      min c.historyLen c.coveredPath.length := by
    rw [List.length_drop]; omega
  have hle : min c.historyLen c.coveredPath.length ≤
      (c.coveredPath.drop
        (c.coveredPath.length - min c.historyLen c.coveredPath.length) ++ path).length := by
    rw [List.length_append, hctxlen]; omega
  rw [estimate_eq_estimateFrom, estimateFrom_no_new render c _ _ hle hall]
  refine ⟨rfl, rfl, rfl, ?_⟩
  by_cases hp : path.isEmpty
  · have hplen : path.length = 0 := List.isEmpty_iff_length_eq_zero.mp hp
    rw [if_pos hp, if_pos (by rw [List.length_append, hctxlen]; omega)]
  · have hplen : path.length ≠ 0 :=
      fun hz => hp (List.isEmpty_iff_length_eq_zero.mpr hz)
    rw [if_neg hp, if_neg (by rw [List.length_append, hctxlen]; omega)]

/-- C3 counterexample: a Coverer that has covered the play action,
offered the play step again as the candidate: no step of the
candidate yields any new coverage item (every item of the windowed
path is already covered), `MaxIncrease = 0` and `FirstStep = -1`, yet
`MaxStep` is 0, not -1 as the claim states. -/
theorem estimate_no_new_items_cex :
    ((playCovered.covFunc renderPlayer
        (playCovered.coveredPath.drop
            (playCovered.coveredPath.length -
              min playCovered.historyLen playCovered.coveredPath.length)
          ++ [playStep])).all (fun x => decide (x ∈ playCovered.coverCount))) = true ∧
      (playCovered.EstimateCoverageIncrease renderPlayer [playStep]).MaxIncrease = 0 ∧
      (playCovered.EstimateCoverageIncrease renderPlayer [playStep]).FirstStep = -1 ∧
      (playCovered.EstimateCoverageIncrease renderPlayer [playStep]).MaxStep = 0 := by
  decide

/-- C3 amended witness: the amended statement evaluated at the same
concrete Coverer and candidate. -/
theorem estimate_no_new_items_witness :
    (playCovered.EstimateCoverageIncrease renderPlayer [playStep]).MaxIncrease = 0 ∧
      (playCovered.EstimateCoverageIncrease renderPlayer [playStep]).FirstStep = -1 ∧
      (playCovered.EstimateCoverageIncrease renderPlayer [playStep]).FirstIncrease = 0 ∧
      (playCovered.EstimateCoverageIncrease renderPlayer [playStep]).MaxStep =
        (if ([playStep] : Path PlayerState).isEmpty then -1 else 0) :=
  estimate_no_new_items renderPlayer playCovered [playStep] (by decide)

/-! ## Coverage monotonicity (C7) -/

theorem covFunc_funcs_mono (render : σ → String) (c c' : Coverer σ)
    (hf : ∀ f ∈ c.covFuncs, f ∈ c'.covFuncs) (p : Path σ) (x : String)
    (h : x ∈ c.covFunc render p) : x ∈ c'.covFunc render p := by
  simp only [Coverer.covFunc, List.mem_flatMap] at h ⊢
  obtain ⟨f, hfm, hx⟩ := h
  exact ⟨f, hf f hfm, hx⟩

theorem invariant_addCovFunc (render : σ → String) (c : Coverer σ) (f : CovFunc)
    (ih : c.coverCount.Nodup ∧ ∀ s ∈ c.coverCount, s ∈ c.covFunc render c.coveredPath) :
    (c.addCovFunc f).coverCount.Nodup ∧
      ∀ s ∈ (c.addCovFunc f).coverCount,
        s ∈ (c.addCovFunc f).covFunc render (c.addCovFunc f).coveredPath :=
  ⟨ih.1, fun s hs => covFunc_funcs_mono render c (c.addCovFunc f)
    (fun _ hg => List.mem_append_left _ hg) _ s (ih.2 s hs)⟩

theorem invariant_historyLen (render : σ → String) (c : Coverer σ) (k : Nat)
    (ih : c.coverCount.Nodup ∧ ∀ s ∈ c.coverCount, s ∈ c.covFunc render c.coveredPath) :
    (if c.historyLen < k then { c with historyLen := k } else c).coverCount.Nodup ∧
      ∀ s ∈ (if c.historyLen < k then { c with historyLen := k } else c).coverCount,
        s ∈ (if c.historyLen < k then { c with historyLen := k } else c).covFunc render
          (if c.historyLen < k then { c with historyLen := k } else c).coveredPath := by
  split <;> exact ih

theorem reachable_invariant (render : σ → String) {c : Coverer σ}
    (h : Reachable render c) :
    c.coverCount.Nodup ∧ ∀ s ∈ c.coverCount, s ∈ c.covFunc render c.coveredPath := by
  induction h with
  | new => exact ⟨List.nodup_nil, by intro s hs; simp [NewCoverer] at hs⟩
  | coverActions hr ih => exact invariant_addCovFunc render _ _ ih
  | coverActionFormats hr ih => exact invariant_addCovFunc render _ _ ih
  | @coverActionCombinations c0 k hr ih =>
    exact invariant_addCovFunc render _ _ (invariant_historyLen render c0 k ih)
  | @coverActionFormatCombinations c0 k hr ih =>
    exact invariant_addCovFunc render _ _ (invariant_historyLen render c0 k ih)
  | coverStates hr ih => exact invariant_addCovFunc render _ _ ih
  | coverStateActions hr ih => exact invariant_addCovFunc render _ _ ih
  | @coverStateCombinations c0 k hr ih =>
    exact invariant_addCovFunc render _ _ (invariant_historyLen render c0 k ih)
  | @markCovered c0 steps hr ih =>
    refine ⟨ih.1, fun s hs => ?_⟩
    exact covFunc_mono render _ _ steps s (ih.2 s hs)
  | @updateCoverage c0 hr ih =>
    obtain ⟨hnd, hsub⟩ := foldl_insertKey_spec
      (c0.covFunc render c0.coveredPath) [] List.nodup_nil
    refine ⟨hnd, fun s hs => ?_⟩
    have hm : s ∈ ((c0.covFunc render c0.coveredPath).foldl insertKey []).toFinset :=
      List.mem_toFinset.mpr hs
    rw [hsub] at hm
    simp only [List.toFinset_nil, Finset.empty_union, List.mem_toFinset] at hm
    exact hm
  | setBestPathRandom randomness hr ih => exact ih

/-- C7: for every Coverer reachable through the exported API (built-in
coverage functions only) and every sequence of steps, `Coverage()`
after `MarkCovered` of those steps followed by `UpdateCoverage` is at
least `Coverage()` before those calls. -/
theorem coverage_monotone (render : σ → String) (c : Coverer σ)
    (h : Reachable render c) (steps : List (Step σ)) :
    c.Coverage ≤ ((c.MarkCovered steps).UpdateCoverage render).Coverage := by
  obtain ⟨hnd, hsub⟩ := reachable_invariant render h
  have hup : ((c.MarkCovered steps).UpdateCoverage render).Coverage =
      (c.covFunc render (c.coveredPath ++ steps)).dedup.length := by
    simp only [Coverer.UpdateCoverage, Coverer.MarkCovered, Coverer.Coverage]
    rw [foldl_insertKey_length]
    rfl
  rw [hup, Coverer.Coverage, ← List.card_toFinset,
    ← List.toFinset_card_of_nodup hnd]
  apply Finset.card_le_card
  intro x hx
  rw [List.mem_toFinset] at hx ⊢
  exact covFunc_mono render c _ steps x (hsub x hx)

/-- C7 witness: coverage monotonicity at a concrete reachable Coverer
(fresh, action coverage registered) marking the play step. -/
theorem coverage_monotone_witness :
    ((NewCoverer PlayerState).CoverActions).Coverage ≤
      ((((NewCoverer PlayerState).CoverActions).MarkCovered
          [playStep]).UpdateCoverage renderPlayer).Coverage :=
  coverage_monotone renderPlayer ((NewCoverer PlayerState).CoverActions)
    (Reachable.coverActions Reachable.new) [playStep]

/-! ## BestPath: no zero-increase result (C4) -/

theorem scanPaths_some_pos (render : σ → String) (c : Coverer σ) :
    ∀ (l : List (Path σ)) (acc : Option (Path σ × CoverageIncreaseStats)),
      (∀ p st, acc = some (p, st) →
        st = c.EstimateCoverageIncrease render p ∧ st.MaxIncrease ≠ 0) →
      ∀ p st, scanPaths render c acc l = some (p, st) →
        st = c.EstimateCoverageIncrease render p ∧ st.MaxIncrease ≠ 0 := by
  intro l
  induction l with
  | nil => intro acc hacc p st h; exact hacc p st h
  | cons q rest ih =>
    intro acc hacc p st h
    simp only [scanPaths] at h
    by_cases hq : (c.EstimateCoverageIncrease render q).MaxIncrease = 0
    · rw [if_pos hq] at h
      exact ih acc hacc p st h
    · rw [if_neg hq] at h
      cases acc with
      | none =>
        replace h :
            (if BestPathRandomAmongAnyPath ≤ c.randomness then
              some (q, c.EstimateCoverageIncrease render q)
            else scanPaths render c (some (q, c.EstimateCoverageIncrease render q)) rest) =
              some (p, st) := h
        by_cases hrand : BestPathRandomAmongAnyPath ≤ c.randomness
        · rw [if_pos hrand] at h
          obtain ⟨rfl, rfl⟩ : q = p ∧ c.EstimateCoverageIncrease render q = st := by
            cases h; exact ⟨rfl, rfl⟩
          exact ⟨rfl, hq⟩
        · rw [if_neg hrand] at h
          exact ih _ (fun p' st' he => by cases he; exact ⟨rfl, hq⟩) p st h
      | some pb =>
        obtain ⟨bp, best⟩ := pb
        replace h :
            (if replacesBest c.randomness (c.EstimateCoverageIncrease render q) best then
              scanPaths render c (some (q, c.EstimateCoverageIncrease render q)) rest
            else scanPaths render c (some (bp, best)) rest) = some (p, st) := h
        by_cases hrep : replacesBest c.randomness (c.EstimateCoverageIncrease render q) best
        · rw [if_pos hrep] at h
          exact ih _ (fun p' st' he => by cases he; exact ⟨rfl, hq⟩) p st h
        · rw [if_neg hrep] at h
          exact ih _ hacc p st h

theorem scanPaths_all_zero (render : σ → String) (c : Coverer σ) :
    ∀ (l : List (Path σ)) (acc : Option (Path σ × CoverageIncreaseStats)),
      (∀ q ∈ l, (c.EstimateCoverageIncrease render q).MaxIncrease = 0) →
      scanPaths render c acc l = acc := by
  intro l
  induction l with
  | nil => intro acc _; rfl
  | cons q rest ih =>
    intro acc hz
    simp only [scanPaths]
    rw [if_pos (hz q (List.mem_cons_self q rest))]
    exact ih acc (fun r hr => hz r (List.mem_cons_of_mem q hr))

/-- C4: `BestPath` never returns a path whose estimated `MaxIncrease`
is 0 — any returned stats are the returned path's estimate with
`MaxIncrease ≠ 0`; and when every candidate's estimate is 0 (or no
candidate exists) it returns nil.  The first two conjuncts state this
for the scan over an arbitrary candidate list (covering the shuffled
orders used at nonzero randomness levels), the last two for
`BestPath` over the `Model.Paths` enumeration. -/
theorem bestPath_no_zero_increase (render : σ → String) (c : Coverer σ) (m : Model σ)
    (s : σ) (maxLen : Nat) (l : List (Path σ)) :
    (∀ p st, scanPaths render c none l = some (p, st) →
        st = c.EstimateCoverageIncrease render p ∧ st.MaxIncrease ≠ 0) ∧
      ((∀ q ∈ l, (c.EstimateCoverageIncrease render q).MaxIncrease = 0) →
        scanPaths render c none l = none) ∧
      (∀ p st, c.BestPath render m s maxLen = some (p, st) →
        st = c.EstimateCoverageIncrease render p ∧ st.MaxIncrease ≠ 0) ∧
      ((∀ q ∈ m.Paths s maxLen, (c.EstimateCoverageIncrease render q).MaxIncrease = 0) →
        c.BestPath render m s maxLen = none) := by
  refine ⟨?_, ?_, ?_, ?_⟩
  · exact scanPaths_some_pos render c l none (fun p st h => by cases h)
  · intro hz
    exact scanPaths_all_zero render c l none hz
  · intro p st h
    unfold Coverer.BestPath at h
    rcases hscan : scanPaths render c none (m.Paths s maxLen) with _ | ⟨bp, best⟩
    · rw [hscan] at h; cases h
    · rw [hscan] at h
      replace h : (if bp.isEmpty then none else some (bp, best)) = some (p, st) := h
      by_cases hbe : bp.isEmpty
      · rw [if_pos hbe] at h; cases h
      · rw [if_neg hbe] at h
        obtain ⟨rfl, rfl⟩ : bp = p ∧ best = st := by cases h; exact ⟨rfl, rfl⟩
        exact scanPaths_some_pos render c _ none (fun p' st' he => by cases he) _ _ hscan
  · intro hz
    unfold Coverer.BestPath
    rw [scanPaths_all_zero render c _ none hz]

/-- C4 witness: a fresh Coverer with no coverage function registered
estimates 0 for every candidate, so `BestPath` on the player model
returns nil. -/
theorem bestPath_no_zero_increase_witness :
    Coverer.BestPath renderPlayer (NewCoverer PlayerState) playerModel ⟨false, 1⟩ 2 = none :=
  (bestPath_no_zero_increase renderPlayer (NewCoverer PlayerState) playerModel
    ⟨false, 1⟩ 2 (playerModel.Paths ⟨false, 1⟩ 2)).2.2.2 (by decide)

/-! ## Frame property of EstimateCoverageIncrease (C8) -/

theorem visible_listWrite (arr : List α) (st ln : Nat) (xs : List α)
    (h : st + ln ≤ arr.length) :
    ((listWrite arr (st + ln) xs).drop st).take ln = (arr.drop st).take ln := by
  unfold listWrite
  rw [List.drop_append_of_le_length (by rw [List.length_take]; omega)]
  rw [List.drop_take]
  have e1 : st + ln - st = ln := by omega
  rw [e1]
  rw [List.take_append_of_le_length (by rw [List.length_take, List.length_drop]; omega)]
  rw [List.take_take, Nat.min_self]

theorem goAppend_visible (s : GoSlice α) (xs : List α)
    (h : s.start + s.len ≤ s.arr.length) :
    (s.append xs).visible = s.visible ++ xs := by
  unfold GoSlice.append GoSlice.visible
  split_ifs with hcap
  · dsimp only
    unfold listWrite
    rw [List.drop_append_of_le_length (by rw [List.length_take]; omega)]
    rw [List.drop_take]
    have e1 : s.start + s.len - s.start = s.len := by omega
    rw [e1]
    rw [List.take_append_eq_append_take]
    have e2 : (List.take s.len (List.drop s.start s.arr)).length = s.len := by
      rw [List.length_take, List.length_drop]; omega
    rw [List.take_of_length_le (by rw [e2]; omega), e2]
    have e3 : s.len + xs.length - s.len = xs.length := by omega
    rw [e3]
    rw [List.take_append_of_le_length (Nat.le_refl _), List.take_length]
  · dsimp only
    rw [List.drop_zero]
    rw [List.take_of_length_le
      (by rw [List.length_append, List.length_take, List.length_drop]; omega)]

/-- C8: `EstimateCoverageIncrease` leaves the Coverer observably
unchanged — `coveredPath` (the elements its slice denotes, even when
the append into the history sub-slice writes into `coveredPath`'s
backing array past its length), `coverCount`, the registered coverage
functions, `historyLen` and the randomness level are the same before
and after the call, and the returned stats are those of the pure
estimation.  `hwf` is the Go slice validity invariant
`len(s) ≤ cap(s)`. -/
theorem estimate_frame (render : σ → String) (c : CovererH σ) (path : Path σ)
    (hwf : c.coveredPath.start + c.coveredPath.len ≤ c.coveredPath.arr.length) :
    (c.EstimateCoverageIncrease render path).2.coveredPath.visible =
        c.coveredPath.visible ∧
      (c.EstimateCoverageIncrease render path).2.coverCount = c.coverCount ∧
      (c.EstimateCoverageIncrease render path).2.covFuncs = c.covFuncs ∧
      (c.EstimateCoverageIncrease render path).2.historyLen = c.historyLen ∧
      (c.EstimateCoverageIncrease render path).2.randomness = c.randomness ∧
      (c.EstimateCoverageIncrease render path).1 =
        Coverer.EstimateCoverageIncrease render c.toCoverer path := by
  have hle : min c.historyLen c.coveredPath.len ≤ c.coveredPath.len :=
    Nat.min_le_right _ _
  have hsubstart : c.coveredPath.start +
      (c.coveredPath.len - min c.historyLen c.coveredPath.len) +
      min c.historyLen c.coveredPath.len =
      c.coveredPath.start + c.coveredPath.len := by omega
  have hsubvalid :
      (⟨c.coveredPath.arr,
        c.coveredPath.start + (c.coveredPath.len - min c.historyLen c.coveredPath.len),
        min c.historyLen c.coveredPath.len⟩ : GoSlice (Step σ)).start +
        (⟨c.coveredPath.arr,
          c.coveredPath.start + (c.coveredPath.len - min c.historyLen c.coveredPath.len),
          min c.historyLen c.coveredPath.len⟩ : GoSlice (Step σ)).len ≤
        (⟨c.coveredPath.arr,
          c.coveredPath.start + (c.coveredPath.len - min c.historyLen c.coveredPath.len),
          min c.historyLen c.coveredPath.len⟩ : GoSlice (Step σ)).arr.length := by
    show c.coveredPath.start + (c.coveredPath.len - min c.historyLen c.coveredPath.len) +
      min c.historyLen c.coveredPath.len ≤ c.coveredPath.arr.length
    omega
  refine ⟨?_, rfl, rfl, rfl, rfl, ?_⟩
  · have harr : (c.EstimateCoverageIncrease render path).2.coveredPath =
        { c.coveredPath with arr :=
          (if c.coveredPath.start +
              (c.coveredPath.len - min c.historyLen c.coveredPath.len) +
              min c.historyLen c.coveredPath.len + path.length ≤
              c.coveredPath.arr.length then
            ((⟨c.coveredPath.arr,
              c.coveredPath.start +
                (c.coveredPath.len - min c.historyLen c.coveredPath.len),
              min c.historyLen c.coveredPath.len⟩ : GoSlice (Step σ)).append path).arr
          else c.coveredPath.arr) } := rfl
    rw [harr]
    unfold GoSlice.visible
    split_ifs with hcap
    · have happ : ((⟨c.coveredPath.arr,
          c.coveredPath.start + (c.coveredPath.len - min c.historyLen c.coveredPath.len),
          min c.historyLen c.coveredPath.len⟩ : GoSlice (Step σ)).append path).arr =
          listWrite c.coveredPath.arr
            (c.coveredPath.start + c.coveredPath.len) path := by
        unfold GoSlice.append
        rw [if_pos hcap]
        show listWrite c.coveredPath.arr
          (c.coveredPath.start +
            (c.coveredPath.len - min c.historyLen c.coveredPath.len) +
            min c.historyLen c.coveredPath.len) path = _
        rw [hsubstart]
      rw [happ]
      exact visible_listWrite c.coveredPath.arr c.coveredPath.start c.coveredPath.len
        path hwf
    · rfl
  · have h1 : (c.EstimateCoverageIncrease render path).1 =
        estimateFrom render c.toCoverer
          (((⟨c.coveredPath.arr,
            c.coveredPath.start + (c.coveredPath.len - min c.historyLen c.coveredPath.len),
            min c.historyLen c.coveredPath.len⟩ : GoSlice (Step σ)).append path).visible)
          (min c.historyLen c.coveredPath.len) := rfl
    have hvl : c.coveredPath.visible.length = c.coveredPath.len := by
      unfold GoSlice.visible
      rw [List.length_take, List.length_drop]
      omega
    have hsubvis : (⟨c.coveredPath.arr,
        c.coveredPath.start + (c.coveredPath.len - min c.historyLen c.coveredPath.len),
        min c.historyLen c.coveredPath.len⟩ : GoSlice (Step σ)).visible =
        c.coveredPath.visible.drop
          (c.coveredPath.visible.length - min c.historyLen c.coveredPath.visible.length) := by
      rw [hvl]
      unfold GoSlice.visible
      dsimp only
      rw [List.drop_take, List.drop_drop]
      have e4 : c.coveredPath.len -
          (c.coveredPath.len - min c.historyLen c.coveredPath.len) =
          min c.historyLen c.coveredPath.len := by omega
      rw [e4]
    rw [h1, goAppend_visible _ path hsubvalid, hsubvis, hvl]
    conv_rhs => rw [estimate_eq_estimateFrom render c.toCoverer path]
    have hcv : c.toCoverer.coveredPath = c.coveredPath.visible := rfl
    have hch : c.toCoverer.historyLen = c.historyLen := rfl
    rw [hcv, hch, hvl]

/-- C8 witness: the frame property at a concrete slice-level Coverer
whose backing array has spare capacity (so the append writes into
it), estimating the pause step. -/
theorem estimate_frame_witness :
    (CovererH.EstimateCoverageIncrease renderPlayer
        ⟨⟨[playStep, pauseStep], 0, 1⟩, [], [CovFunc.actions], 1, 0⟩
        [pauseStep]).2.coveredPath.visible =
        (⟨[playStep, pauseStep], 0, 1⟩ : GoSlice (Step PlayerState)).visible ∧
      (CovererH.EstimateCoverageIncrease renderPlayer
        ⟨⟨[playStep, pauseStep], 0, 1⟩, [], [CovFunc.actions], 1, 0⟩
        [pauseStep]).2.coverCount = [] ∧
      (CovererH.EstimateCoverageIncrease renderPlayer
        ⟨⟨[playStep, pauseStep], 0, 1⟩, [], [CovFunc.actions], 1, 0⟩
        [pauseStep]).2.covFuncs = [CovFunc.actions] ∧
      (CovererH.EstimateCoverageIncrease renderPlayer
        ⟨⟨[playStep, pauseStep], 0, 1⟩, [], [CovFunc.actions], 1, 0⟩
        [pauseStep]).2.historyLen = 1 ∧
      (CovererH.EstimateCoverageIncrease renderPlayer
        ⟨⟨[playStep, pauseStep], 0, 1⟩, [], [CovFunc.actions], 1, 0⟩
        [pauseStep]).2.randomness = 0 ∧
      (CovererH.EstimateCoverageIncrease renderPlayer
        ⟨⟨[playStep, pauseStep], 0, 1⟩, [], [CovFunc.actions], 1, 0⟩
        [pauseStep]).1 =
        Coverer.EstimateCoverageIncrease renderPlayer
          (CovererH.toCoverer ⟨⟨[playStep, pauseStep], 0, 1⟩, [], [CovFunc.actions], 1, 0⟩)
          [pauseStep] :=
  estimate_frame renderPlayer
    ⟨⟨[playStep, pauseStep], 0, 1⟩, [], [CovFunc.actions], 1, 0⟩ [pauseStep] (by decide)

/-! ## BestPath: lexicographic optimality at randomness level none (C1) -/

theorem replaces_none_iff (est best : CoverageIncreaseStats) :
    replacesBest BestPathRandomNone est best = true ↔ LexBetter est best := by
  unfold replacesBest LexBetter BestPathRandomNone BestPathRandomAmongMaxCoverageIncrease
    BestPathRandomAmongFastestMaxCoverageIncrease
  split_ifs <;> simp_all <;> omega

theorem lexBetter_trans {a b c : CoverageIncreaseStats}
    (h1 : LexBetter a b) (h2 : LexBetter b c) : LexBetter a c := by
  unfold LexBetter at h1 h2 ⊢
  omega

theorem lexBetter_of_not_worse {a b c : CoverageIncreaseStats}
    (h1 : LexBetter a b) (h2 : ¬ LexBetter c b) : LexBetter a c := by
  unfold LexBetter at h1 h2 ⊢
  omega

theorem lexBetter_asymm {a b : CoverageIncreaseStats}
    (h : LexBetter a b) : ¬ LexBetter b a := by
  unfold LexBetter at h ⊢
  omega

theorem lexBetter_irrefl (a : CoverageIncreaseStats) : ¬ LexBetter a a := by
  unfold LexBetter
  omega

theorem scanPaths_cons_zero (render : σ → String) (c : Coverer σ)
    (acc : Option (Path σ × CoverageIncreaseStats)) (q : Path σ) (rest : List (Path σ))
    (hq : (c.EstimateCoverageIncrease render q).MaxIncrease = 0) :
    scanPaths render c acc (q :: rest) = scanPaths render c acc rest := by
  simp only [scanPaths]
  rw [if_pos hq]

theorem scanPaths_cons_first (render : σ → String) (c : Coverer σ)
    (q : Path σ) (rest : List (Path σ))
    (hq : (c.EstimateCoverageIncrease render q).MaxIncrease ≠ 0)
    (hrand : ¬ BestPathRandomAmongAnyPath ≤ c.randomness) :
    scanPaths render c none (q :: rest) =
      scanPaths render c (some (q, c.EstimateCoverageIncrease render q)) rest := by
  simp only [scanPaths]
  rw [if_neg hq]
  exact if_neg hrand

theorem scanPaths_cons_replace (render : σ → String) (c : Coverer σ)
    (bp : Path σ) (best : CoverageIncreaseStats) (q : Path σ) (rest : List (Path σ))
    (hq : (c.EstimateCoverageIncrease render q).MaxIncrease ≠ 0)
    (hrep : replacesBest c.randomness (c.EstimateCoverageIncrease render q) best = true) :
    scanPaths render c (some (bp, best)) (q :: rest) =
      scanPaths render c (some (q, c.EstimateCoverageIncrease render q)) rest := by
  simp only [scanPaths]
  rw [if_neg hq]
  exact if_pos hrep

theorem scanPaths_cons_keep (render : σ → String) (c : Coverer σ)
    (bp : Path σ) (best : CoverageIncreaseStats) (q : Path σ) (rest : List (Path σ))
    (hq : (c.EstimateCoverageIncrease render q).MaxIncrease ≠ 0)
    (hrep : ¬ replacesBest c.randomness (c.EstimateCoverageIncrease render q) best = true) :
    scanPaths render c (some (bp, best)) (q :: rest) =
      scanPaths render c (some (bp, best)) rest := by
  simp only [scanPaths]
  rw [if_neg hq]
  exact if_neg hrep

theorem scanPaths_none_invariant (render : σ → String) (c : Coverer σ)
    (hr : c.randomness = BestPathRandomNone) :
    ∀ (l pre : List (Path σ)) (acc : Option (Path σ × CoverageIncreaseStats)),
      ((acc = none → ∀ q ∈ pre, (c.EstimateCoverageIncrease render q).MaxIncrease = 0) ∧
        (∀ p st, acc = some (p, st) →
          st = c.EstimateCoverageIncrease render p ∧ st.MaxIncrease ≠ 0 ∧
            ∃ l₁ l₂, pre = l₁ ++ p :: l₂ ∧
              (∀ q ∈ l₁, (c.EstimateCoverageIncrease render q).MaxIncrease ≠ 0 →
                LexBetter st (c.EstimateCoverageIncrease render q)) ∧
              (∀ q ∈ l₂, (c.EstimateCoverageIncrease render q).MaxIncrease ≠ 0 →
                ¬ LexBetter (c.EstimateCoverageIncrease render q) st))) →
      ((scanPaths render c acc l = none →
          ∀ q ∈ pre ++ l, (c.EstimateCoverageIncrease render q).MaxIncrease = 0) ∧
        (∀ p st, scanPaths render c acc l = some (p, st) →
          st = c.EstimateCoverageIncrease render p ∧ st.MaxIncrease ≠ 0 ∧
            ∃ l₁ l₂, pre ++ l = l₁ ++ p :: l₂ ∧
              (∀ q ∈ l₁, (c.EstimateCoverageIncrease render q).MaxIncrease ≠ 0 →
                LexBetter st (c.EstimateCoverageIncrease render q)) ∧
              (∀ q ∈ l₂, (c.EstimateCoverageIncrease render q).MaxIncrease ≠ 0 →
                ¬ LexBetter (c.EstimateCoverageIncrease render q) st))) := by
  intro l
  induction l with
  | nil =>
    intro pre acc hinv
    simpa using hinv
  | cons q rest ih =>
    intro pre acc hinv
    have hre : pre ++ q :: rest = (pre ++ [q]) ++ rest := by simp
    rw [hre]
    by_cases hq : (c.EstimateCoverageIncrease render q).MaxIncrease = 0
    · rw [scanPaths_cons_zero render c acc q rest hq]
      apply ih (pre ++ [q]) acc
      refine ⟨?_, ?_⟩
      · intro hn q' hq'
        rcases List.mem_append.mp hq' with h | h
        · exact hinv.1 hn q' h
        · rw [List.mem_singleton] at h
          subst h
          exact hq
      · intro p st he
        obtain ⟨h1, h2, l₁, l₂, hsplit, hl₁, hl₂⟩ := hinv.2 p st he
        refine ⟨h1, h2, l₁, l₂ ++ [q], by rw [hsplit]; simp, hl₁, ?_⟩
        intro q' hq' hpos
        rcases List.mem_append.mp hq' with h | h
        · exact hl₂ q' h hpos
        · rw [List.mem_singleton] at h
          subst h
          exact absurd hq hpos
    · cases acc with
      | none =>
        rw [scanPaths_cons_first render c q rest hq
          (by rw [hr]; unfold BestPathRandomNone BestPathRandomAmongAnyPath; omega)]
        apply ih (pre ++ [q]) (some (q, c.EstimateCoverageIncrease render q))
        refine ⟨fun hn => Option.noConfusion hn, ?_⟩
        intro p st he
        obtain ⟨rfl, rfl⟩ : q = p ∧ c.EstimateCoverageIncrease render q = st := by
          cases he; exact ⟨rfl, rfl⟩
        refine ⟨rfl, hq, pre, [], by simp, ?_, by simp⟩
        intro q' hq' hpos
        exact absurd (hinv.1 rfl q' hq') hpos
      | some pb =>
        obtain ⟨bp, best⟩ := pb
        obtain ⟨hb1, hb2, l₁, l₂, hsplit, hl₁, hl₂⟩ := hinv.2 bp best rfl
        by_cases hrep : replacesBest c.randomness (c.EstimateCoverageIncrease render q) best
        · rw [scanPaths_cons_replace render c bp best q rest hq hrep]
          have hlex : LexBetter (c.EstimateCoverageIncrease render q) best :=
            (replaces_none_iff _ _).mp (by rw [← hr]; exact hrep)
          apply ih (pre ++ [q]) (some (q, c.EstimateCoverageIncrease render q))
          refine ⟨fun hn => Option.noConfusion hn, ?_⟩
          intro p st he
          obtain ⟨rfl, rfl⟩ : q = p ∧ c.EstimateCoverageIncrease render q = st := by
            cases he; exact ⟨rfl, rfl⟩
          refine ⟨rfl, hq, pre, [], by simp, ?_, by simp⟩
          intro q' hq' hpos
          rw [hsplit] at hq'
          rcases List.mem_append.mp hq' with h | h
          · exact lexBetter_trans hlex (hl₁ q' h hpos)
          · rw [List.mem_cons] at h
            rcases h with h | h
            · subst h
              rw [← hb1]
              exact hlex
            · exact lexBetter_of_not_worse hlex (hl₂ q' h hpos)
        · rw [scanPaths_cons_keep render c bp best q rest hq hrep]
          have hnlex : ¬ LexBetter (c.EstimateCoverageIncrease render q) best := by
            intro hcon
            exact hrep (by rw [hr]; exact (replaces_none_iff _ _).mpr hcon)
          apply ih (pre ++ [q]) (some (bp, best))
          refine ⟨fun hn => Option.noConfusion hn, ?_⟩
          intro p st he
          obtain ⟨rfl, rfl⟩ : bp = p ∧ best = st := by cases he; exact ⟨rfl, rfl⟩
          refine ⟨hb1, hb2, l₁, l₂ ++ [q], by rw [hsplit]; simp, hl₁, ?_⟩
          intro q' hq' hpos
          rcases List.mem_append.mp hq' with h | h
          · exact hl₂ q' h hpos
          · rw [List.mem_singleton] at h
            subst h
            exact hnlex

/-- C1: with randomness level none, whenever `BestPath` returns a
candidate, that candidate was enumerated by `Model.Paths`, its stats
are its own estimate with positive `MaxIncrease`, no enumerated
candidate with positive `MaxIncrease` is lexicographically better
(higher `MaxIncrease`; then lower `MaxStep`; then lower `FirstStep`;
then higher `FirstIncrease`), and every positive candidate enumerated
strictly earlier is lexicographically worse — so on a full tie the
earliest candidate wins. -/
theorem bestPath_lex_optimal (render : σ → String) (c : Coverer σ) (m : Model σ)
    (s : σ) (maxLen : Nat) (p : Path σ) (st : CoverageIncreaseStats)
    (hr : c.randomness = BestPathRandomNone)
    (h : c.BestPath render m s maxLen = some (p, st)) :
    st = c.EstimateCoverageIncrease render p ∧ st.MaxIncrease ≠ 0 ∧
      (∀ q ∈ m.Paths s maxLen,
        (c.EstimateCoverageIncrease render q).MaxIncrease ≠ 0 →
          ¬ LexBetter (c.EstimateCoverageIncrease render q) st) ∧
      ∃ l₁ l₂, m.Paths s maxLen = l₁ ++ p :: l₂ ∧
        ∀ q ∈ l₁, (c.EstimateCoverageIncrease render q).MaxIncrease ≠ 0 →
          LexBetter st (c.EstimateCoverageIncrease render q) := by
  unfold Coverer.BestPath at h
  rcases hscan : scanPaths render c none (m.Paths s maxLen) with _ | ⟨bp, best⟩
  · rw [hscan] at h; cases h
  · rw [hscan] at h
    replace h : (if bp.isEmpty then none else some (bp, best)) = some (p, st) := h
    by_cases hbe : bp.isEmpty
    · rw [if_pos hbe] at h; cases h
    · rw [if_neg hbe] at h
      obtain ⟨rfl, rfl⟩ : bp = p ∧ best = st := by cases h; exact ⟨rfl, rfl⟩
      have hinv := (scanPaths_none_invariant render c hr (m.Paths s maxLen) [] none
        ⟨fun _ q hq => (List.not_mem_nil q hq).elim,
          fun p' st' he => Option.noConfusion he⟩).2 bp best hscan
      obtain ⟨h1, h2, l₁, l₂, hsplit, hl₁, hl₂⟩ := hinv
      rw [List.nil_append] at hsplit
      refine ⟨h1, h2, ?_, l₁, l₂, hsplit, hl₁⟩
      intro q hq hpos
      rw [hsplit] at hq
      rcases List.mem_append.mp hq with hmem | hmem
      · exact lexBetter_asymm (hl₁ q hmem hpos)
      · rw [List.mem_cons] at hmem
        rcases hmem with hmem | hmem
        · subst hmem
          rw [h1]
          exact lexBetter_irrefl _
        · exact hl₂ q hmem hpos

/-- C1 witness: at depth 1 from the player start state with action
coverage, `BestPath` (randomness none) returns the play step with its
estimate; the theorem's optimality conclusions hold there. -/
theorem bestPath_lex_optimal_witness :
    ({ MaxStep := 0, MaxIncrease := 1, FirstStep := 0, FirstIncrease := 1 } :
        CoverageIncreaseStats) =
      Coverer.EstimateCoverageIncrease renderPlayer
        ((NewCoverer PlayerState).CoverActions) [playStep] ∧
      ({ MaxStep := 0, MaxIncrease := 1, FirstStep := 0, FirstIncrease := 1 } :
          CoverageIncreaseStats).MaxIncrease ≠ 0 ∧
      (∀ q ∈ playerModel.Paths ⟨false, 1⟩ 1,
        (Coverer.EstimateCoverageIncrease renderPlayer
            ((NewCoverer PlayerState).CoverActions) q).MaxIncrease ≠ 0 →
          ¬ LexBetter (Coverer.EstimateCoverageIncrease renderPlayer
              ((NewCoverer PlayerState).CoverActions) q)
            { MaxStep := 0, MaxIncrease := 1, FirstStep := 0, FirstIncrease := 1 }) ∧
      ∃ l₁ l₂, playerModel.Paths ⟨false, 1⟩ 1 = l₁ ++ [playStep] :: l₂ ∧
        ∀ q ∈ l₁, (Coverer.EstimateCoverageIncrease renderPlayer
            ((NewCoverer PlayerState).CoverActions) q).MaxIncrease ≠ 0 →
          LexBetter { MaxStep := 0, MaxIncrease := 1, FirstStep := 0, FirstIncrease := 1 }
            (Coverer.EstimateCoverageIncrease renderPlayer
              ((NewCoverer PlayerState).CoverActions) q) :=
  bestPath_lex_optimal renderPlayer ((NewCoverer PlayerState).CoverActions)
    playerModel ⟨false, 1⟩ 1 [playStep]
    { MaxStep := 0, MaxIncrease := 1, FirstStep := 0, FirstIncrease := 1 } rfl (by decide)

/-! ## The player-model scenario (C9) -/

set_option maxRecDepth 100000 in
/-- C9: on the player model with action coverage registered
(`CoverActionCombinations 1`) and randomness none, `BestPath` from
`{playing:false, song:1}` with `maxDepth = 6` returns a path of
length 6 whose stats satisfy `MaxIncrease = 4` and `MaxStep = 3`, and
the four actions play, pause, nextsong, prevsong all appear among the
first four steps of that path. -/
theorem player_bestPath_scenario :
    (Coverer.BestPath renderPlayer ((NewCoverer PlayerState).CoverActionCombinations 1)
        playerModel ⟨false, 1⟩ 6).map
      (fun r => (r.1.length, r.2.MaxIncrease, r.2.MaxStep,
        decide (∀ a ∈ ["play", "pause", "nextsong", "prevsong"],
          a ∈ (r.1.take 4).map (fun st => st.action.name)))) =
      some (6, 4, 3, true) := by
  decide

end Gofmbt
